import Mathlib

/-!
Verification of the `yada` double-array trie against its specification.

The development shallowly embeds the three source files of the crate:

* `src/unit.rs`  – the 32-bit node codec (`Unit`); a unit word is modelled
  as a `Nat` below `2^32`, and each bit operation of the source is
  translated literally using `&&&`, `|||`, `^^^`, `<<<`, `>>>`
  (with an explicit `% 2^32` exactly where the Rust `u32` arithmetic wraps).
* `src/builder.rs` – the block allocator (`DoubleArrayBlock`), the offset
  search iterator (`FindOffset`) and the recursive builder
  (`DoubleArrayBuilder::build_recursive`).
* `src/lib.rs` – the readers `exact_match_search` and
  `common_prefix_search`.

Rust `panic` outcomes (failed `assert` macros, `unwrap` on `None`,
out-of-range slice indexing, and so on) are modelled by dedicated
constructors (`QRes.panicked`, `BuildOut.panicked`, ...); Rust functions
returning `Option` are modelled by sum results keeping the `None` path
distinct from the panic path.  Recursion that is unbounded in Rust
(the depth-first build, the free-list walk) takes an explicit fuel
argument with a dedicated `fuelOut` outcome, so that a result other than
`fuelOut` is an exact account of what the Rust code does.
-/

namespace Yada

/-! ## Node codec (`src/unit.rs`) -/

/-- Size of one serialized unit in bytes (`UNIT_SIZE`). -/
def UNIT_SIZE : Nat := 4

/-- The `u32` modulus. -/
def U32 : Nat := 2 ^ 32

/-- `Unit::has_leaf`: `self.0 >> 8 & 1 == 1`. -/
def has_leaf (w : Nat) : Bool := (w >>> 8) &&& 1 == 1

/-- `Unit::is_leaf`: `self.0 >> 31 == 1`. -/
def is_leaf (w : Nat) : Bool := (w >>> 31) == 1

/-- `Unit::value`: `self.0 & 0x7FFFFFFF`. -/
def value (w : Nat) : Nat := w &&& 0x7FFFFFFF

/-- `Unit::label`: `self.0 & ((1 << 31) | 0xFF)`. -/
def label (w : Nat) : Nat := w &&& ((1 <<< 31) ||| 0xFF)

/-- `Unit::offset`: `(self.0 >> 10) << ((self.0 & (1 << 9)) >> 6)`. -/
def offset (w : Nat) : Nat := (w >>> 10) <<< ((w &&& (1 <<< 9)) >>> 6)

/-- `Unit::set_offset`.  The two `assert` macros of the extended branch and
the leading range assert are modelled by `none` (a Rust panic).  The Rust
expression `(self.0 << 23 as u32) >> 23` wraps in `u32`, hence the
explicit `% U32`. -/
def set_offset (w o : Nat) : Option Nat :=
  if o < 1 <<< 29 then
    if o < 1 <<< 21 then
      some ((o <<< 10) ||| (((w <<< 23) % U32) >>> 23))
    else if (o <<< 2) &&& (1 <<< 31) ≠ 0 then none
    else if o &&& 0xFF ≠ 0 then none
    else
      some ((o <<< 2) ||| (1 <<< 9) ||| (((w <<< 23) % U32) >>> 23))
  else none

/-- `Unit::set_has_leaf`. -/
def set_has_leaf (w : Nat) (b : Bool) : Nat :=
  if b then w ||| (1 <<< 8) else w &&& (U32 - 1 - (1 <<< 8))

/-- `Unit::set_label`: `(self.0 >> 8) << 8 | (label as u32)`. -/
def set_label (w l : Nat) : Nat := ((w >>> 8) <<< 8) ||| l

/-- `Unit::set_value`: `value | 1 << 31` (the previous word is discarded). -/
def set_value (v : Nat) : Nat := v ||| (1 <<< 31)

end Yada

/-! ## Arithmetic helper lemmas for the codec -/

/-- A disjoint bitwise or is an addition: when `a` is a multiple of `2^k`
and `b < 2^k`, the two summands occupy different bit ranges. -/
theorem lor_eq_add_of_disjoint {k : Nat} (a b : Nat)
    (ha : a % 2 ^ k = 0) (hb : b < 2 ^ k) : a ||| b = a + b := by
  obtain ⟨q, hq⟩ : 2 ^ k ∣ a := Nat.dvd_of_mod_eq_zero ha
  subst hq
  apply Nat.eq_of_testBit_eq
  intro i
  rw [Nat.testBit_or]
  rcases Nat.lt_or_ge i k with hik | hik
  · -- low bits: the multiple of `2^k` contributes nothing
    have h2 : 2 ^ k = 2 ^ i * 2 ^ (k - i) := by
      rw [← Nat.pow_add]
      congr 1
      omega
    have hmul : 2 ^ k * q = 2 ^ i * (2 ^ (k - i) * q) := by
      rw [h2, Nat.mul_assoc]
    have heven : ∃ m, 2 ^ (k - i) * q = 2 * m := by
      refine ⟨2 ^ (k - i - 1) * q, ?_⟩
      have : 2 ^ (k - i) = 2 * 2 ^ (k - i - 1) := by
        rw [← Nat.pow_succ']
        congr 1
        omega
      rw [this, Nat.mul_assoc]
    obtain ⟨m, hm⟩ := heven
    have hbit1 : (2 ^ k * q).testBit i = false := by
      rw [Nat.testBit_to_div_mod, hmul, Nat.mul_div_cancel_left _ (Nat.two_pow_pos i), hm]
      simp [Nat.mul_mod_right]
    have hbit2 : (2 ^ k * q + b).testBit i = b.testBit i := by
      rw [Nat.testBit_to_div_mod, Nat.testBit_to_div_mod, hmul,
        Nat.mul_add_div (Nat.two_pow_pos i), hm]
      have : (2 * m + b / 2 ^ i) % 2 = (b / 2 ^ i) % 2 := by omega
      rw [this]
    rw [hbit1, hbit2]
    simp
  · -- high bits: `b` contributes nothing
    have hble : b < 2 ^ i :=
      Nat.lt_of_lt_of_le hb (Nat.pow_le_pow_right (by omega) hik)
    have hbit1 : b.testBit i = false := Nat.testBit_lt_two_pow hble
    have h2 : 2 ^ i = 2 ^ k * 2 ^ (i - k) := by
      rw [← Nat.pow_add]
      congr 1
      omega
    have hbit2 : (2 ^ k * q + b).testBit i = (2 ^ k * q).testBit i := by
      rw [Nat.testBit_to_div_mod, Nat.testBit_to_div_mod, h2,
        ← Nat.div_div_eq_div_mul, ← Nat.div_div_eq_div_mul,
        Nat.mul_add_div (Nat.two_pow_pos k), Nat.mul_div_cancel_left _ (Nat.two_pow_pos k)]
      have : b / 2 ^ k = 0 := Nat.div_eq_of_lt hb
      rw [this]
      simp
    rw [hbit1, hbit2]
    simp

/-- `x &&& 2^i` isolates one bit. -/
theorem and_two_pow_eq (x i : Nat) :
    x &&& 2 ^ i = if x.testBit i then 2 ^ i else 0 := by
  apply Nat.eq_of_testBit_eq
  intro j
  rw [Nat.testBit_and, Nat.testBit_two_pow]
  by_cases hx : x.testBit i
  · by_cases h : i = j
    · subst h
      simp [hx, Nat.testBit_two_pow]
    · simp [hx, h, Nat.testBit_two_pow]
  · by_cases h : i = j
    · subst h
      simp [hx]
    · simp [hx, h]

/-- The truncated shift `((w <<< 23) % 2^32) >>> 23` keeps the low 9 bits. -/
theorem trunc_shift_low9 (w : Nat) : ((w <<< 23) % Yada.U32) >>> 23 = w % 2 ^ 9 := by
  have h32 : Yada.U32 = 2 ^ 9 * 2 ^ 23 := by norm_num [Yada.U32]
  rw [Nat.shiftLeft_eq, Nat.shiftRight_eq_div_pow, h32, Nat.mul_mod_mul_right,
    Nat.mul_div_cancel _ (Nat.two_pow_pos 23)]

/-- In the non-extended branch the stored word is a plain sum. -/
theorem set_offset_low_eq (w o : Nat) :
    (o <<< 10) ||| (((w <<< 23) % Yada.U32) >>> 23) = o * 1024 + w % 512 := by
  have h10 : (2 : Nat) ^ 10 = 1024 := by norm_num
  have h9 : (2 : Nat) ^ 9 = 512 := by norm_num
  rw [trunc_shift_low9, Nat.shiftLeft_eq, h10]
  have hmod : (o * 1024) % 2 ^ 10 = 0 := by
    rw [h10]
    exact Nat.mul_mod_left o 1024
  have hlt : w % 2 ^ 9 < 2 ^ 10 := by
    rw [h9]
    omega
  have := lor_eq_add_of_disjoint (k := 10) (o * 1024) (w % 2 ^ 9) hmod hlt
  rw [h9] at this
  exact this

/-- In the extended branch the stored word is a plain sum. -/
theorem set_offset_high_eq (w o : Nat) (ho : o % 256 = 0) :
    (o <<< 2) ||| (1 <<< 9) ||| (((w <<< 23) % Yada.U32) >>> 23) =
      o * 4 + 512 + w % 512 := by
  have h10 : (2 : Nat) ^ 10 = 1024 := by norm_num
  have h9 : (2 : Nat) ^ 9 = 512 := by norm_num
  have h19 : (1 <<< 9 : Nat) = 512 := by norm_num [Nat.one_shiftLeft]
  rw [trunc_shift_low9, Nat.shiftLeft_eq, h19]
  have step1 : o * 2 ^ 2 ||| 512 = o * 4 + 512 := by
    have hmod : (o * 2 ^ 2) % 2 ^ 10 = 0 := by
      rw [h10]
      norm_num
      omega
    have hlt : (512 : Nat) < 2 ^ 10 := by norm_num
    have := lor_eq_add_of_disjoint (k := 10) (o * 2 ^ 2) 512 hmod hlt
    rw [this]
    norm_num
  rw [step1]
  have hmod2 : (o * 4 + 512) % 2 ^ 9 = 0 := by
    rw [h9]
    omega
  have hlt2 : w % 512 < 2 ^ 9 := by
    rw [h9]
    omega
  have := lor_eq_add_of_disjoint (k := 9) (o * 4 + 512) (w % 512) hmod2 hlt2
  rw [h9, this]

/-- C8.  `set_offset(o)` succeeds for every offset `o < 2^29` with
`o < 2^21` or `o % 256 = 0`; afterwards `offset()` decodes exactly `o`,
and the label bits (bits 0..7) and the `has_leaf` bit of the word are
unchanged. -/
theorem C8_set_offset_roundtrip (w o : Nat) (_hw : w < Yada.U32) (ho : o < 2 ^ 29)
    (hlow : o < 2 ^ 21 ∨ o % 256 = 0) :
    ∃ w1, Yada.set_offset w o = some w1 ∧ Yada.offset w1 = o ∧
      w1 &&& 255 = w &&& 255 ∧ Yada.has_leaf w1 = Yada.has_leaf w := by
  have h255 : (255 : Nat) = 2 ^ 8 - 1 := by norm_num
  have hand : ∀ x : Nat, x &&& 255 = x % 256 := by
    intro x
    rw [h255, Nat.and_pow_two_sub_one_eq_mod]
  have hhl : ∀ x : Nat, Yada.has_leaf x = (x / 256 % 2 == 1) := by
    intro x
    unfold Yada.has_leaf
    rw [Nat.and_one_is_mod, Nat.shiftRight_eq_div_pow]
  have h19 : (1 <<< 9 : Nat) = 2 ^ 9 := by norm_num [Nat.one_shiftLeft]
  rcases Nat.lt_or_ge o (2 ^ 21) with h21 | h21
  · refine ⟨o * 1024 + w % 512, ?_, ?_, ?_, ?_⟩
    · have hc1 : o < 1 <<< 29 := by
        rw [Nat.one_shiftLeft]
        exact ho
      have hc2 : o < 1 <<< 21 := by
        rw [Nat.one_shiftLeft]
        exact h21
      unfold Yada.set_offset
      rw [if_pos hc1, if_pos hc2, set_offset_low_eq]
    · have hbit : (o * 1024 + w % 512).testBit 9 = false := by
        rw [Nat.testBit_to_div_mod]
        simp only [decide_eq_false_iff_not]
        have h29 : (2 : Nat) ^ 9 = 512 := by norm_num
        rw [h29]
        omega
      unfold Yada.offset
      rw [h19, and_two_pow_eq, hbit]
      simp only [Bool.false_eq_true, if_false, Nat.zero_shiftRight, Nat.shiftLeft_zero]
      rw [Nat.shiftRight_eq_div_pow]
      norm_num
      omega
    · rw [hand, hand]
      omega
    · rw [hhl, hhl]
      have : (o * 1024 + w % 512) / 256 % 2 = w / 256 % 2 := by omega
      rw [this]
  · rcases hlow with h | hmod256
    · omega
    refine ⟨o * 4 + 512 + w % 512, ?_, ?_, ?_, ?_⟩
    · have hmsb : (o <<< 2) &&& (1 <<< 31) = 0 := by
        have h131 : (1 <<< 31 : Nat) = 2 ^ 31 := by norm_num [Nat.one_shiftLeft]
        rw [h131, and_two_pow_eq, Nat.testBit_lt_two_pow]
        · simp
        · rw [Nat.shiftLeft_eq]
          have : (2 : Nat) ^ 2 = 4 := by norm_num
          rw [this]
          have h31 : (2 : Nat) ^ 31 = 2 ^ 29 * 4 := by norm_num
          omega
      have hc1 : o < 1 <<< 29 := by
        rw [Nat.one_shiftLeft]
        exact ho
      have hn2 : ¬ o < 1 <<< 21 := by
        rw [Nat.one_shiftLeft]
        omega
      have hn3 : ¬ (o <<< 2) &&& (1 <<< 31) ≠ 0 := by
        rw [hmsb]
        omega
      have hn4 : ¬ o &&& 0xFF ≠ 0 := by
        rw [hand]
        omega
      unfold Yada.set_offset
      rw [if_pos hc1, if_neg hn2, if_neg hn3, if_neg hn4, set_offset_high_eq w o hmod256]
    · have hbit : (o * 4 + 512 + w % 512).testBit 9 = true := by
        rw [Nat.testBit_to_div_mod]
        simp only [decide_eq_true_eq]
        have h29 : (2 : Nat) ^ 9 = 512 := by norm_num
        rw [h29]
        omega
      unfold Yada.offset
      rw [h19, and_two_pow_eq, hbit]
      simp only [if_true]
      have hsr : (2 : Nat) ^ 9 >>> 6 = 8 := by norm_num [Nat.shiftRight_eq_div_pow]
      rw [hsr, Nat.shiftLeft_eq, Nat.shiftRight_eq_div_pow]
      have h210 : (2 : Nat) ^ 10 = 1024 := by norm_num
      have h28 : (2 : Nat) ^ 8 = 256 := by norm_num
      rw [h210, h28]
      omega
    · rw [hand, hand]
      omega
    · rw [hhl, hhl]
      have : (o * 4 + 512 + w % 512) / 256 % 2 = w / 256 % 2 := by omega
      rw [this]

/-- Witness for C8 at the concrete word 511 and offset 5. -/
theorem C8_set_offset_roundtrip_witness :
    ∃ w1, Yada.set_offset 511 5 = some w1 ∧ Yada.offset w1 = 5 ∧
      w1 &&& 255 = 511 &&& 255 ∧ Yada.has_leaf w1 = Yada.has_leaf 511 :=
  C8_set_offset_roundtrip 511 5 (by norm_num [Yada.U32]) (by norm_num)
    (Or.inl (by norm_num))

namespace Yada

/-! ## Block allocator (`src/builder.rs`) -/

/-- `BLOCK_SIZE`. -/
def BLOCK_SIZE : Nat := 256

/-- `INVALID_NEXT`: 0 means that there is no next unused unit. -/
def INVALID_NEXT : Nat := 0

/-- `INVALID_PREV`: 255 means that there is no previous unused unit. -/
def INVALID_PREV : Nat := 255

/-- `DoubleArrayBlock`.  The four fixed-size arrays are modelled as lists
of length 256; `head_unused`, cell indices and the link arrays hold byte
values. -/
structure DoubleArrayBlock where
  id : Nat
  units : List Nat
  is_used : List Bool
  head_unused : Nat
  next_unused : List Nat
  prev_unused : List Nat
deriving DecidableEq

/-- Array read `self.is_used[i]` (always in range in the source, where the
index is a `u8` and the array has 256 entries). -/
def DoubleArrayBlock.usedAt (blk : DoubleArrayBlock) (i : Nat) : Bool :=
  blk.is_used.getD i false

/-- Array read `self.next_unused[i]`. -/
def DoubleArrayBlock.nextAt (blk : DoubleArrayBlock) (i : Nat) : Nat :=
  blk.next_unused.getD i 0

/-- Array read `self.prev_unused[i]`. -/
def DoubleArrayBlock.prevAt (blk : DoubleArrayBlock) (i : Nat) : Nat :=
  blk.prev_unused.getD i 0

/-- `DEFAULT_NEXT_UNUSED`: `next_unused[i] = i+1` for `i < 255`, and the
sentinel 0 at index 255. -/
def DEFAULT_NEXT_UNUSED : List Nat :=
  (List.range BLOCK_SIZE).map (fun i => if i < BLOCK_SIZE - 1 then i + 1 else INVALID_NEXT)

/-- `DEFAULT_PREV_UNUSED`: `prev_unused[i] = i-1` for `i > 0`, and the
sentinel 255 at index 0. -/
def DEFAULT_PREV_UNUSED : List Nat :=
  (List.range BLOCK_SIZE).map (fun i => if i = 0 then INVALID_PREV else i - 1)

/-- `DoubleArrayBlock::new`. -/
def DoubleArrayBlock.new (id : Nat) : DoubleArrayBlock where
  id := id
  units := List.replicate BLOCK_SIZE 0
  is_used := List.replicate BLOCK_SIZE false
  head_unused := 0
  next_unused := DEFAULT_NEXT_UNUSED
  prev_unused := DEFAULT_PREV_UNUSED

/-- `DoubleArrayBlock::reserve`: mark the cell used and splice it out of
the doubly-linked free list in O(1), advancing `head_unused` when needed.
The reads of `prev_id` and `next_id` happen before any write, as in the
source. -/
def DoubleArrayBlock.reserve (blk : DoubleArrayBlock) (id : Nat) : DoubleArrayBlock :=
  let is_used1 := blk.is_used.set id true
  let prev_id := blk.prevAt id
  let next_id := blk.nextAt id
  let next1 := if prev_id ≠ INVALID_PREV then blk.next_unused.set prev_id next_id
    else blk.next_unused
  let next2 := next1.set id INVALID_NEXT
  let prev1 := if next_id ≠ INVALID_NEXT then blk.prev_unused.set next_id prev_id
    else blk.prev_unused
  let prev2 := prev1.set id INVALID_PREV
  let head1 := if id = blk.head_unused then next_id else blk.head_unused
  { blk with
      is_used := is_used1
      next_unused := next2
      prev_unused := prev2
      head_unused := head1 }

/-! ### Free-list well-formedness

The invariant stated by the specification: the chain that starts at
`head_unused` and follows `next_unused` (terminated by the next-sentinel
0) enumerates exactly the cells with `is_used = false` in strictly
increasing order, and `prev_unused` is its inverse with the prev-sentinel
255 at the head.  We state it against the strictly increasing list of
unused cells: `head_unused` is its first element (0 when there is none),
each element points to its successor via `next_unused` (the last one to
the sentinel 0), and points back to its predecessor via `prev_unused`
(the head to the sentinel 255). -/

/-- The unused cells of a block in strictly increasing order. -/
def unusedCells (blk : DoubleArrayBlock) : List Nat :=
  (List.range BLOCK_SIZE).filter (fun i => !(blk.usedAt i))

/-- `linksOk next prev p l` holds when, walking `l`, every element points
back to the previous one (`p` in front of the first) and forward to the
next one (the sentinel 0 after the last). -/
def linksOk (next prev : List Nat) : Nat → List Nat → Bool
  | _, [] => true
  | p, x :: xs => (prev.getD x 0 == p) && (next.getD x 0 == xs.headD 0)
      && linksOk next prev x xs

/-- The free-list invariant of a block. -/
def blockWf (blk : DoubleArrayBlock) : Bool :=
  (blk.is_used.length == BLOCK_SIZE) && (blk.next_unused.length == BLOCK_SIZE)
    && (blk.prev_unused.length == BLOCK_SIZE)
    && (blk.head_unused == (unusedCells blk).headD 0)
    && linksOk blk.next_unused blk.prev_unused INVALID_PREV (unusedCells blk)

end Yada

/-! ## Lemmas about the free-list invariant (claim C10) -/

theorem getD_set_self {α : Type} (l : List α) (i : Nat) (a d : α) (h : i < l.length) :
    (l.set i a).getD i d = a := by
  rw [List.getD_eq_getElem?_getD, List.getElem?_set_self (by simpa using h)]
  rfl

theorem getD_set_ne {α : Type} (l : List α) (i j : Nat) (a d : α) (h : i ≠ j) :
    (l.set i a).getD j d = l.getD j d := by
  rw [List.getD_eq_getElem?_getD, List.getD_eq_getElem?_getD, List.getElem?_set_ne h]

/-- `linksOk` only reads the link arrays at members of the list. -/
theorem linksOk_congr (n1 p1 n2 p2 : List Nat) (l : List Nat)
    (hn : ∀ x ∈ l, n2.getD x 0 = n1.getD x 0)
    (hp : ∀ x ∈ l, p2.getD x 0 = p1.getD x 0) :
    ∀ q, Yada.linksOk n2 p2 q l = Yada.linksOk n1 p1 q l := by
  induction l with
  | nil => intro q; rfl
  | cons x xs ih =>
    intro q
    unfold Yada.linksOk
    rw [hn x (List.mem_cons_self x xs), hp x (List.mem_cons_self x xs),
      ih (fun y hy => hn y (List.mem_cons_of_mem x hy))
        (fun y hy => hp y (List.mem_cons_of_mem x hy)) x]

/-- Along a well-linked chain, the `next` pointer of the splice point is
the head of its suffix. -/
theorem linksOk_next_at (next prev : List Nat) (i : Nat) (B : List Nat) :
    ∀ (A : List Nat) (p : Nat),
      Yada.linksOk next prev p (A ++ i :: B) = true →
      next.getD i 0 = B.headD 0 := by
  intro A
  induction A with
  | nil =>
    intro p h
    simp only [List.nil_append, Yada.linksOk, Bool.and_eq_true, beq_iff_eq] at h
    exact h.1.2
  | cons a0 A' ih =>
    intro p h
    simp only [List.cons_append, Yada.linksOk, Bool.and_eq_true, beq_iff_eq] at h
    exact ih a0 h.2

/-- Along a well-linked chain, the `prev` pointer of the splice point is
the accumulator when the prefix is empty, and a member of the prefix
otherwise. -/
theorem linksOk_prev_at (next prev : List Nat) (i : Nat) (B : List Nat) :
    ∀ (A : List Nat) (p : Nat),
      Yada.linksOk next prev p (A ++ i :: B) = true →
      (A = [] ∧ prev.getD i 0 = p) ∨ prev.getD i 0 ∈ A := by
  intro A
  induction A with
  | nil =>
    intro p h
    simp only [List.nil_append, Yada.linksOk, Bool.and_eq_true, beq_iff_eq] at h
    exact Or.inl ⟨rfl, h.1.1⟩
  | cons a0 A' ih =>
    intro p h
    simp only [List.cons_append, Yada.linksOk, Bool.and_eq_true, beq_iff_eq] at h
    rcases ih a0 h.2 with ⟨_, hp⟩ | hmem
    · exact Or.inr (hp ▸ List.mem_cons_self a0 A')
    · exact Or.inr (List.mem_cons_of_mem a0 hmem)

/-- Splicing one element out of a well-linked strictly increasing chain
(the O(1) update of `DoubleArrayBlock::reserve`) keeps it well linked. -/
theorem linksOk_splice (next prev : List Nat) (i : Nat) (B : List Nat)
    (hlen_n : next.length = 256) (hlen_p : prev.length = 256) (hi : i < 256)
    (next_id prev_id : Nat)
    (hnext_id : next_id = next.getD i 0) (hprev_id : prev_id = prev.getD i 0) :
    ∀ (A : List Nat) (p : Nat),
      Yada.linksOk next prev p (A ++ i :: B) = true →
      List.Pairwise (· < ·) (A ++ i :: B) →
      (∀ x ∈ A ++ i :: B, x < 256) →
      (p = 255 ∨ p < i) →
      Yada.linksOk
        ((if prev_id ≠ Yada.INVALID_PREV then next.set prev_id next_id else next).set
          i Yada.INVALID_NEXT)
        ((if next_id ≠ Yada.INVALID_NEXT then prev.set next_id prev_id else prev).set
          i Yada.INVALID_PREV)
        p (A ++ B) = true := by
  intro A
  induction A with
  | nil =>
    intro p h hpw hb hp
    simp only [List.nil_append] at h hpw hb ⊢
    simp only [Yada.linksOk, Bool.and_eq_true, beq_iff_eq] at h
    obtain ⟨⟨h1, h2⟩, h3⟩ := h
    have hprev_p : prev_id = p := by rw [hprev_id, h1]
    have hnext_B : next_id = B.headD 0 := by rw [hnext_id, h2]
    cases B with
    | nil => rfl
    | cons b0 B' =>
      simp only [List.headD_cons] at hnext_B
      simp only [List.pairwise_cons] at hpw
      have hib0 : i < b0 := hpw.1 b0 (List.mem_cons_self b0 B')
      have hiB' : ∀ x ∈ B', i < x := fun x hx => hpw.1 x (List.mem_cons_of_mem b0 hx)
      have hb0B' : ∀ x ∈ B', b0 < x := fun x hx => hpw.2.1 x hx
      have hb0_256 : b0 < 256 := hb b0 (List.mem_cons_of_mem i (List.mem_cons_self b0 B'))
      simp only [Yada.linksOk, Bool.and_eq_true, beq_iff_eq] at h3
      obtain ⟨⟨h3a, h3b⟩, h3c⟩ := h3
      have hnz : next_id ≠ Yada.INVALID_NEXT := by
        simp only [Yada.INVALID_NEXT]
        omega
      have hprev_eq :
          ((if next_id ≠ Yada.INVALID_NEXT then prev.set next_id prev_id else prev).set
            i Yada.INVALID_PREV) = (prev.set b0 prev_id).set i Yada.INVALID_PREV := by
        rw [if_pos hnz, hnext_B]
      have goal_a :
          (((if next_id ≠ Yada.INVALID_NEXT then prev.set next_id prev_id else prev).set
            i Yada.INVALID_PREV).getD b0 0) = p := by
        rw [hprev_eq, getD_set_ne _ _ _ _ _ (by omega),
          getD_set_self _ _ _ _ (by omega), hprev_p]
      have goal_b :
          (((if prev_id ≠ Yada.INVALID_PREV then next.set prev_id next_id else next).set
            i Yada.INVALID_NEXT).getD b0 0) = B'.headD 0 := by
        rw [getD_set_ne _ _ _ _ _ (by omega)]
        rcases hp with hp255 | hplt
        · rw [if_neg (by simp [Yada.INVALID_PREV, hprev_p, hp255])]
          exact h3b
        · rw [if_pos (by simp only [Yada.INVALID_PREV]; omega),
            getD_set_ne _ _ _ _ _ (by omega)]
          exact h3b
      have goal_c :
          Yada.linksOk
            ((if prev_id ≠ Yada.INVALID_PREV then next.set prev_id next_id else next).set
              i Yada.INVALID_NEXT)
            ((if next_id ≠ Yada.INVALID_NEXT then prev.set next_id prev_id else prev).set
              i Yada.INVALID_PREV) b0 B' = true := by
        have hcong := linksOk_congr next prev
          ((if prev_id ≠ Yada.INVALID_PREV then next.set prev_id next_id else next).set
            i Yada.INVALID_NEXT)
          ((if next_id ≠ Yada.INVALID_NEXT then prev.set next_id prev_id else prev).set
            i Yada.INVALID_PREV) B'
          (by
            intro x hx
            have hxi : i < x := hiB' x hx
            rw [getD_set_ne _ _ _ _ _ (by omega)]
            rcases hp with hp255 | hplt
            · rw [if_neg (by simp [Yada.INVALID_PREV, hprev_p, hp255])]
            · rw [if_pos (by simp only [Yada.INVALID_PREV]; omega)]
              rw [getD_set_ne _ _ _ _ _ (by omega)])
          (by
            intro x hx
            have hxi : i < x := hiB' x hx
            have hxb0 : b0 < x := hb0B' x hx
            rw [hprev_eq, getD_set_ne _ _ _ _ _ (by omega),
              getD_set_ne _ _ _ _ _ (by omega)])
        rw [hcong b0]
        exact h3c
      simp only [Yada.linksOk, Bool.and_eq_true, beq_iff_eq]
      exact ⟨⟨goal_a, goal_b⟩, goal_c⟩
  | cons a0 A' ih =>
    intro p h hpw hb hp
    simp only [List.cons_append] at h hpw hb ⊢
    simp only [Yada.linksOk, Bool.and_eq_true, beq_iff_eq] at h
    obtain ⟨⟨h1, h2⟩, h3⟩ := h
    simp only [List.pairwise_cons] at hpw
    have ha0 : ∀ y ∈ A' ++ i :: B, a0 < y := hpw.1
    have hpw' : List.Pairwise (· < ·) (A' ++ i :: B) := hpw.2
    have ha0i : a0 < i :=
      ha0 i (List.mem_append_right A' (List.mem_cons_self i B))
    have hB : next_id = B.headD 0 := by
      rw [hnext_id]
      exact linksOk_next_at next prev i B A' a0 h3
    have hiB : ∀ b ∈ B, i < b := by
      intro b hbB
      have hpwB := (List.pairwise_append.mp hpw').2.1
      simp only [List.pairwise_cons] at hpwB
      exact hpwB.1 b hbB
    have hnext_pos : next_id ≠ 0 → i < next_id := by
      intro hnz
      cases B with
      | nil => simp [List.headD] at hB; omega
      | cons b0 B' =>
        simp only [List.headD_cons] at hB
        rw [hB]
        exact hiB b0 (List.mem_cons_self b0 B')
    have goal_a :
        (((if next_id ≠ Yada.INVALID_NEXT then prev.set next_id prev_id else prev).set
          i Yada.INVALID_PREV).getD a0 0) = p := by
      rw [getD_set_ne _ _ _ _ _ (by omega)]
      by_cases hnz : next_id ≠ Yada.INVALID_NEXT
      · rw [if_pos hnz]
        have : i < next_id := hnext_pos (by simpa [Yada.INVALID_NEXT] using hnz)
        rw [getD_set_ne _ _ _ _ _ (by omega)]
        exact h1
      · rw [if_neg hnz]
        exact h1
    have goal_b :
        (((if prev_id ≠ Yada.INVALID_PREV then next.set prev_id next_id else next).set
          i Yada.INVALID_NEXT).getD a0 0) = (A' ++ B).headD 0 := by
      rw [getD_set_ne _ _ _ _ _ (by omega)]
      rcases linksOk_prev_at next prev i B A' a0 h3 with ⟨hA'nil, hpid⟩ | hpid_mem
      · subst hA'nil
        have hpid' : prev_id = a0 := by rw [hprev_id, hpid]
        rw [if_pos (by simp only [Yada.INVALID_PREV]; omega), hpid',
          getD_set_self _ _ _ _ (by omega)]
        simp only [List.nil_append]
        exact hB
      · have hpid' : prev_id ∈ A' := hprev_id ▸ hpid_mem
        have ha0pid : a0 < prev_id :=
          ha0 prev_id (List.mem_append_left (i :: B) hpid')
        cases A' with
        | nil => cases hpid'
        | cons a1 A'' =>
          simp only [List.cons_append, List.headD_cons] at h2 ⊢
          by_cases hc : prev_id ≠ Yada.INVALID_PREV
          · rw [if_pos hc, getD_set_ne _ _ _ _ _ (by omega)]
            exact h2
          · rw [if_neg hc]
            exact h2
    have goal_c :
        Yada.linksOk
          ((if prev_id ≠ Yada.INVALID_PREV then next.set prev_id next_id else next).set
            i Yada.INVALID_NEXT)
          ((if next_id ≠ Yada.INVALID_NEXT then prev.set next_id prev_id else prev).set
            i Yada.INVALID_PREV) a0 (A' ++ B) = true := by
      refine ih a0 h3 hpw' ?_ (Or.inr ha0i)
      intro x hx
      exact hb x (List.mem_cons_of_mem a0 hx)
    simp only [Yada.linksOk, Bool.and_eq_true, beq_iff_eq]
    exact ⟨⟨goal_a, goal_b⟩, goal_c⟩

/-- Reserving a cell removes exactly that cell from the unused list. -/
theorem unusedCells_reserve (blk : Yada.DoubleArrayBlock) (i : Nat)
    (hlen : blk.is_used.length = 256) (hi : i < 256) :
    Yada.unusedCells (blk.reserve i) =
      (Yada.unusedCells blk).filter (fun j => j != i) := by
  have hres : (blk.reserve i).is_used = blk.is_used.set i true := rfl
  have step1 : Yada.unusedCells (blk.reserve i)
      = (List.range Yada.BLOCK_SIZE).filter (fun j => (j != i) && !(blk.usedAt j)) := by
    unfold Yada.unusedCells
    apply List.filter_congr
    intro a ha
    have ha256 : a < 256 := by
      simpa [Yada.BLOCK_SIZE, List.mem_range] using ha
    by_cases hai : a = i
    · subst hai
      have h1 : (blk.reserve a).usedAt a = true := by
        unfold Yada.DoubleArrayBlock.usedAt
        rw [hres]
        exact getD_set_self blk.is_used a true false (by omega)
      rw [h1]
      simp
    · have h1 : (blk.reserve i).usedAt a = blk.usedAt a := by
        unfold Yada.DoubleArrayBlock.usedAt
        rw [hres]
        exact getD_set_ne blk.is_used i a true false (fun he => hai he.symm)
      rw [h1]
      have h2 : (a != i) = true := by
        simp [hai]
      rw [h2, Bool.true_and]
  rw [step1]
  unfold Yada.unusedCells
  exact (List.filter_filter _ _).symm

/-- The free-list invariant is preserved by `reserve` on an unused cell. -/
theorem blockWf_reserve (blk : Yada.DoubleArrayBlock) (i : Nat)
    (hwf : Yada.blockWf blk = true) (hi : i < 256) (hunused : blk.usedAt i = false) :
    Yada.blockWf (blk.reserve i) = true := by
  simp only [Yada.blockWf, Yada.BLOCK_SIZE, Bool.and_eq_true, beq_iff_eq] at hwf
  obtain ⟨⟨⟨⟨hl1, hl2⟩, hl3⟩, hhead⟩, hlinks⟩ := hwf
  have hmem : i ∈ Yada.unusedCells blk := by
    simp [Yada.unusedCells, List.mem_filter, List.mem_range, Yada.BLOCK_SIZE,
      Yada.DoubleArrayBlock.usedAt] at hunused ⊢
    exact ⟨hi, hunused⟩
  obtain ⟨A, B, hAB⟩ := List.append_of_mem hmem
  have hpw0 : List.Pairwise (· < ·) (Yada.unusedCells blk) :=
    List.Pairwise.filter _ (List.pairwise_lt_range _)
  have hpw : List.Pairwise (· < ·) (A ++ i :: B) := hAB ▸ hpw0
  have hbound : ∀ x ∈ A ++ i :: B, x < 256 := by
    intro x hx
    have hx0 : x ∈ Yada.unusedCells blk := hAB ▸ hx
    simp only [Yada.unusedCells, List.mem_filter, List.mem_range, Yada.BLOCK_SIZE] at hx0
    exact hx0.1
  have hA : ∀ a ∈ A, a < i := by
    intro a ha
    exact (List.pairwise_append.mp hpw).2.2 a ha i (List.mem_cons_self i B)
  have hB : ∀ b ∈ B, i < b := by
    intro b hb
    have := (List.pairwise_append.mp hpw).2.1
    simp only [List.pairwise_cons] at this
    exact this.1 b hb
  have hcells : Yada.unusedCells (blk.reserve i) = A ++ B := by
    rw [unusedCells_reserve blk i hl1 hi, hAB, List.filter_append]
    have hfA : A.filter (fun j => j != i) = A := by
      rw [List.filter_eq_self]
      intro a ha
      simp only [bne_iff_ne, ne_eq]
      have := hA a ha
      omega
    have hfB : B.filter (fun j => j != i) = B := by
      rw [List.filter_eq_self]
      intro b hb
      simp only [bne_iff_ne, ne_eq]
      have := hB b hb
      omega
    rw [hfA]
    simp only [List.filter_cons, bne_self_eq_false, Bool.false_eq_true, if_false, hfB]
  have hlinksAB : Yada.linksOk blk.next_unused blk.prev_unused Yada.INVALID_PREV
      (A ++ i :: B) = true := by
    rw [← hAB]
    exact hlinks
  have hnextB : blk.nextAt i = B.headD 0 :=
    linksOk_next_at blk.next_unused blk.prev_unused i B A Yada.INVALID_PREV hlinksAB
  have hres_next : (blk.reserve i).next_unused =
      (if blk.prevAt i ≠ Yada.INVALID_PREV then
        blk.next_unused.set (blk.prevAt i) (blk.nextAt i) else blk.next_unused).set
        i Yada.INVALID_NEXT := rfl
  have hres_prev : (blk.reserve i).prev_unused =
      (if blk.nextAt i ≠ Yada.INVALID_NEXT then
        blk.prev_unused.set (blk.nextAt i) (blk.prevAt i) else blk.prev_unused).set
        i Yada.INVALID_PREV := rfl
  have hres_head : (blk.reserve i).head_unused =
      if i = blk.head_unused then blk.nextAt i else blk.head_unused := rfl
  have hhead' : (blk.reserve i).head_unused = (A ++ B).headD 0 := by
    rw [hres_head]
    cases A with
    | nil =>
      have : blk.head_unused = i := by
        rw [hhead, hAB]
        simp
      rw [if_pos this.symm, hnextB]
      simp
    | cons a0 A' =>
      have ha0i : a0 < i := hA a0 (List.mem_cons_self a0 A')
      have : blk.head_unused = a0 := by
        rw [hhead, hAB]
        simp
      rw [if_neg (by omega), this]
      simp
  have hlinks' : Yada.linksOk (blk.reserve i).next_unused (blk.reserve i).prev_unused
      Yada.INVALID_PREV (A ++ B) = true := by
    rw [hres_next, hres_prev]
    exact linksOk_splice blk.next_unused blk.prev_unused i B hl2 hl3 hi
      (blk.nextAt i) (blk.prevAt i) rfl rfl A Yada.INVALID_PREV hlinksAB hpw hbound
      (Or.inl rfl)
  simp only [Yada.blockWf, Yada.BLOCK_SIZE, Bool.and_eq_true, beq_iff_eq]
  refine ⟨⟨⟨⟨?_, ?_⟩, ?_⟩, ?_⟩, ?_⟩
  · show (blk.is_used.set i true).length = 256
    simpa using hl1
  · rw [hres_next]
    by_cases hc : blk.prevAt i ≠ Yada.INVALID_PREV
    · rw [if_pos hc]
      simpa using hl2
    · rw [if_neg hc]
      simpa using hl2
  · rw [hres_prev]
    by_cases hc : blk.nextAt i ≠ Yada.INVALID_NEXT
    · rw [if_pos hc]
      simpa using hl3
    · rw [if_neg hc]
      simpa using hl3
  · rw [hcells]
    exact hhead'
  · rw [hcells]
    exact hlinks'

set_option maxRecDepth 100000 in
/-- A freshly created block satisfies the free-list invariant.  The block
id is irrelevant: no field inspected by `blockWf` depends on it. -/
theorem blockWf_new (id : Nat) : Yada.blockWf (Yada.DoubleArrayBlock.new id) = true := by
  rfl

/-- C10.  The free-list invariant (the chain from `head_unused` along
`next_unused`, cut off by the sentinel 0, lists exactly the unused cells
in strictly increasing order, with `prev_unused` its inverse and the
sentinel 255 at the head) holds of a freshly created block and is
preserved by `reserve i` for every currently unused cell `i` (cell ids
are `u8` values, hence `i < 256`). -/
theorem C10_reserve_preserves_free_list :
    (∀ id, Yada.blockWf (Yada.DoubleArrayBlock.new id) = true) ∧
    (∀ (blk : Yada.DoubleArrayBlock) (i : Nat), Yada.blockWf blk = true →
      i < 256 → blk.usedAt i = false → Yada.blockWf (blk.reserve i) = true) :=
  ⟨blockWf_new, blockWf_reserve⟩

/-- Witness for C10: reserving cell 5 of a fresh block keeps the
invariant. -/
theorem C10_reserve_preserves_free_list_witness :
    Yada.blockWf ((Yada.DoubleArrayBlock.new 0).reserve 5) = true :=
  C10_reserve_preserves_free_list.2 (Yada.DoubleArrayBlock.new 0) 5
    (C10_reserve_preserves_free_list.1 0) (by norm_num) (by rfl)

namespace Yada

/-! ## Offset search (`FindOffset` in `src/builder.rs`) -/

/-- `FindOffset::is_valid_offset`.  `self.unit_id as u32` truncates, hence
`% U32`.  The `None` arm of `is_used.get(id)` asserts false in the source
(a panic); it is unreachable because `offset` and `label` are bytes, so
`offset ^^^ label < 256 = is_used.len()`, and it is modelled by `false`. -/
def is_valid_offset (blk : DoubleArrayBlock) (unit_id : Nat) (labels : List Nat)
    (offset : Nat) : Bool :=
  let offset_u32 := (blk.id <<< 8) ||| offset
  let relative_offset := (unit_id % U32) ^^^ offset_u32
  if (relative_offset &&& (0xFF <<< 21)) > 0 ∧ (relative_offset &&& 0xFF) > 0 then
    false
  else
    (labels.drop 1).all (fun l =>
      match blk.is_used.get? (offset ^^^ l) with
      | some b => !b
      | none => false)

/-- Result of one `FindOffset::next` call: a Rust panic, fuel exhaustion
of the model, iterator end (`None`), or a candidate offset together with
the advanced `unused_id` state. -/
inductive FON where
  | panicked : FON
  | fuelOut : FON
  | done : FON
  | cand (offset : Nat) (uid : Nat) : FON
deriving DecidableEq

/-- The `loop` of `FindOffset::next`: walk the free list from `uid`,
asserting the cell unused, form the candidate `uid ^^^ labels[0]`,
validate it, advance, and stop at the sentinel. -/
def find_offset_walk (blk : DoubleArrayBlock) (unit_id : Nat) (labels : List Nat) :
    Nat → Nat → FON
  | 0, _ => .fuelOut
  | fuel + 1, uid =>
    if blk.usedAt uid then .panicked
    else
      match labels with
      | [] => .done
      | l0 :: _ =>
        let offset := uid ^^^ l0
        let uid1 := blk.nextAt uid
        if is_valid_offset blk unit_id labels offset then .cand offset uid1
        else if uid1 = INVALID_NEXT then .done
        else find_offset_walk blk unit_id labels fuel uid1

/-- `FindOffset::next` with the iterator state `uid` (`self.unused_id`):
the two early-return guards, the full-block assertions, then the loop. -/
def find_offset_next (blk : DoubleArrayBlock) (unit_id : Nat) (labels : List Nat)
    (uid : Nat) : FON :=
  if uid = INVALID_NEXT ∧ blk.usedAt uid then .done
  else if blk.head_unused = INVALID_NEXT ∧ blk.usedAt 0 then
    (if blk.is_used.all (fun b => b) then .done else .panicked)
  else if blk.is_used.all (fun b => b) then .panicked
  else find_offset_walk blk unit_id labels 257 uid

end Yada

/-! ## Lemmas about the offset search (claim C7) -/

/-- Along a well-linked suffix of the free list, the walk of
`FindOffset::next` returns the candidate of the first unused cell whose
offset validates, and the iterator end when none does. -/
theorem find_offset_walk_spec (blk : Yada.DoubleArrayBlock) (unit_id l0 : Nat)
    (ls : List Nat) :
    ∀ (xs : List Nat) (x p fuel : Nat),
      (x :: xs).length < fuel →
      Yada.linksOk blk.next_unused blk.prev_unused p (x :: xs) = true →
      List.Pairwise (· < ·) (x :: xs) →
      (∀ y ∈ x :: xs, blk.usedAt y = false) →
      Yada.find_offset_walk blk unit_id (l0 :: ls) fuel x =
        match (x :: xs).find?
            (fun u => Yada.is_valid_offset blk unit_id (l0 :: ls) (u ^^^ l0)) with
        | none => Yada.FON.done
        | some u => Yada.FON.cand (u ^^^ l0) (blk.nextAt u) := by
  intro xs
  induction xs with
  | nil =>
    intro x p fuel hfuel hlinks hpw hunused
    cases fuel with
    | zero => simp at hfuel
    | succ f =>
      have hx_unused : blk.usedAt x = false := hunused x (List.mem_cons_self x [])
      simp only [Yada.linksOk, Bool.and_eq_true, beq_iff_eq] at hlinks
      obtain ⟨⟨_, hnx⟩, _⟩ := hlinks
      unfold Yada.find_offset_walk
      rw [hx_unused]
      simp only [Bool.false_eq_true, if_false, List.find?_cons]
      cases hval : Yada.is_valid_offset blk unit_id (l0 :: ls) (x ^^^ l0) with
      | true => rfl
      | false =>
        show (if blk.nextAt x = Yada.INVALID_NEXT then Yada.FON.done
            else Yada.find_offset_walk blk unit_id (l0 :: ls) f (blk.nextAt x)) =
          match List.find?
              (fun u => Yada.is_valid_offset blk unit_id (l0 :: ls) (u ^^^ l0)) [] with
          | none => Yada.FON.done
          | some u => Yada.FON.cand (u ^^^ l0) (blk.nextAt u)
        have hnx' : blk.nextAt x = 0 := hnx
        rw [hnx']
        simp [Yada.INVALID_NEXT]
  | cons z zs ih =>
    intro x p fuel hfuel hlinks hpw hunused
    cases fuel with
    | zero => simp at hfuel
    | succ f =>
      have hx_unused : blk.usedAt x = false :=
        hunused x (List.mem_cons_self x (z :: zs))
      simp only [Yada.linksOk, Bool.and_eq_true, beq_iff_eq] at hlinks
      obtain ⟨⟨_, hnx⟩, hlinks'⟩ := hlinks
      have hlinks'' : Yada.linksOk blk.next_unused blk.prev_unused x (z :: zs) = true := by
        simp only [Yada.linksOk, Bool.and_eq_true, beq_iff_eq]
        exact hlinks'
      unfold Yada.find_offset_walk
      rw [hx_unused]
      simp only [Bool.false_eq_true, if_false, List.find?_cons]
      cases hval : Yada.is_valid_offset blk unit_id (l0 :: ls) (x ^^^ l0) with
      | true => rfl
      | false =>
        show (if blk.nextAt x = Yada.INVALID_NEXT then Yada.FON.done
            else Yada.find_offset_walk blk unit_id (l0 :: ls) f (blk.nextAt x)) =
          match List.find?
              (fun u => Yada.is_valid_offset blk unit_id (l0 :: ls) (u ^^^ l0)) (z :: zs) with
          | none => Yada.FON.done
          | some u => Yada.FON.cand (u ^^^ l0) (blk.nextAt u)
        rw [List.find?_cons]
        have hnx' : blk.nextAt x = z := by
          have : (z :: zs).headD 0 = z := rfl
          rw [Yada.DoubleArrayBlock.nextAt, hnx, this]
        have hxz : x < z :=
          (List.pairwise_cons.mp hpw).1 z (List.mem_cons_self z zs)
        have hz_pos : ¬ blk.nextAt x = Yada.INVALID_NEXT := by
          rw [hnx']
          simp only [Yada.INVALID_NEXT]
          omega
        rw [if_neg hz_pos, hnx']
        refine ih z x f ?_ hlinks'' ?_ ?_
        · simp only [List.length_cons] at hfuel ⊢
          omega
        · exact (List.pairwise_cons.mp hpw).2
        · intro u hu
          exact hunused u (List.mem_cons_of_mem x hu)

/-- C7 (amended).  For a well-formed block and a non-empty label list,
the first candidate produced by the offset search is `u XOR l0` for `u`
the first unused cell, in free-list order (equivalently: increasing cell
order), whose candidate passes the validation (all the remaining label
cells unused and the relative-offset width rule); the search is empty
exactly when no unused cell passes. -/
theorem C7_block_offset_search (blk : Yada.DoubleArrayBlock) (unit_id l0 : Nat)
    (ls : List Nat) (hwf : Yada.blockWf blk = true) :
    Yada.find_offset_next blk unit_id (l0 :: ls) blk.head_unused =
      match (Yada.unusedCells blk).find?
          (fun u => Yada.is_valid_offset blk unit_id (l0 :: ls) (u ^^^ l0)) with
      | none => Yada.FON.done
      | some u => Yada.FON.cand (u ^^^ l0) (blk.nextAt u) := by
  simp only [Yada.blockWf, Yada.BLOCK_SIZE, Bool.and_eq_true, beq_iff_eq] at hwf
  obtain ⟨⟨⟨⟨hl1, _⟩, _⟩, hhead⟩, hlinks⟩ := hwf
  cases hc : Yada.unusedCells blk with
  | nil =>
    have hused0 : blk.usedAt 0 = true := by
      have h0 : (0 : Nat) ∈ List.range Yada.BLOCK_SIZE := by
        simp [Yada.BLOCK_SIZE]
      have := List.filter_eq_nil_iff.mp hc 0 h0
      simpa using this
    have hhead0 : blk.head_unused = 0 := by
      rw [hhead, hc]
      rfl
    unfold Yada.find_offset_next
    rw [if_pos ⟨by rw [hhead0]; rfl, by rw [hhead0]; exact hused0⟩]
    rfl
  | cons u0 rest =>
    have hmem0 : u0 ∈ Yada.unusedCells blk := by
      rw [hc]
      exact List.mem_cons_self u0 rest
    have hu0_unused : blk.usedAt u0 = false := by
      have := List.mem_filter.mp hmem0
      simpa using this.2
    have hu0_256 : u0 < 256 := by
      have := List.mem_filter.mp hmem0
      simpa [Yada.BLOCK_SIZE, List.mem_range] using this.1
    have hhead0 : blk.head_unused = u0 := by
      rw [hhead, hc]
      rfl
    have hnotall : ¬ blk.is_used.all (fun b => b) = true := by
      intro hall
      have hget : blk.is_used.getD u0 false ∈ blk.is_used := by
        rw [List.getD_eq_getElem?_getD, List.getElem?_eq_getElem (by omega)]
        exact List.getElem_mem _
      have := List.all_eq_true.mp hall _ hget
      rw [Yada.DoubleArrayBlock.usedAt] at hu0_unused
      rw [hu0_unused] at this
      cases this
    have hg1 : ¬ (blk.head_unused = Yada.INVALID_NEXT ∧
        blk.usedAt blk.head_unused = true) := by
      rintro ⟨_, hu⟩
      rw [hhead0, hu0_unused] at hu
      cases hu
    have hg2 : ¬ (blk.head_unused = Yada.INVALID_NEXT ∧ blk.usedAt 0 = true) := by
      rintro ⟨he, hu⟩
      have hu0 : u0 = 0 := by
        have := hhead0.symm.trans he
        simpa [Yada.INVALID_NEXT] using this
      rw [← hu0, hu0_unused] at hu
      cases hu
    have hlen0 : (Yada.unusedCells blk).length ≤ 256 := by
      have := List.length_filter_le (fun i => !(blk.usedAt i))
        (List.range Yada.BLOCK_SIZE)
      simpa [Yada.unusedCells, Yada.BLOCK_SIZE] using this
    have hlen : (u0 :: rest).length < 257 := by
      rw [← hc]
      omega
    have hlinksC : Yada.linksOk blk.next_unused blk.prev_unused Yada.INVALID_PREV
        (u0 :: rest) = true := hc ▸ hlinks
    have hpwC : List.Pairwise (· < ·) (u0 :: rest) :=
      hc ▸ List.Pairwise.filter _ (List.pairwise_lt_range _)
    have hunusedC : ∀ y ∈ u0 :: rest, blk.usedAt y = false := by
      intro y hy
      rw [← hc] at hy
      have := List.mem_filter.mp hy
      simpa using this.2
    have hspec := find_offset_walk_spec blk unit_id l0 ls rest u0 Yada.INVALID_PREV 257
      hlen hlinksC hpwC hunusedC
    unfold Yada.find_offset_next
    rw [if_neg hg1, if_neg hg2, if_neg hnotall, hhead0]
    exact hspec

/-- Witness for C7 (amended) on a fresh block with label list `[3]`. -/
theorem C7_block_offset_search_witness :
    Yada.find_offset_next (Yada.DoubleArrayBlock.new 0) 5 [3]
        (Yada.DoubleArrayBlock.new 0).head_unused =
      match (Yada.unusedCells (Yada.DoubleArrayBlock.new 0)).find?
          (fun u => Yada.is_valid_offset (Yada.DoubleArrayBlock.new 0) 5 [3] (u ^^^ 3)) with
      | none => Yada.FON.done
      | some u => Yada.FON.cand (u ^^^ 3) ((Yada.DoubleArrayBlock.new 0).nextAt u) :=
  C7_block_offset_search (Yada.DoubleArrayBlock.new 0) 5 3 [] (blockWf_new 0)

set_option maxRecDepth 10000 in
/-- C7 counterexample.  On a fresh block with `unit_id = 0` and label
list `[1]`, the first candidate of the offset search is base 1
(generated from unused cell 0), although base 0 also satisfies the
claimed condition: `0 = u XOR l0` for the unused cell `u = 1`, and every
`0 XOR l` for `l` in the list indexes an unused cell.  Since `0 < 1`,
the first candidate is not the smallest valid base, refuting the claim
as stated. -/
theorem C7_counterexample :
    Yada.find_offset_next (Yada.DoubleArrayBlock.new 0) 0 [1]
        (Yada.DoubleArrayBlock.new 0).head_unused = Yada.FON.cand 1 1 ∧
    (Yada.DoubleArrayBlock.new 0).usedAt (0 ^^^ 1) = false ∧ (0 : Nat) < 1 :=
  ⟨by rfl, by rfl, by norm_num⟩

namespace Yada

/-! ## Builder state (`DoubleArrayBuilder` in `src/builder.rs`) -/

/-- `NUM_TARGET_BLOCKS`: number of most recent blocks searched for offsets. -/
def NUM_TARGET_BLOCKS : Nat := 16

/-- `DoubleArrayBuilder`: the block vector plus the `used_offsets` set.
The hash set is modelled as a list queried with `contains` (Policy U). -/
structure DoubleArrayBuilder where
  blocks : List DoubleArrayBlock
  used_offsets : List Nat
deriving DecidableEq

/-- The `while self.get_block(unit_id).is_none() { self.extend_block(); }`
loop: append fresh blocks with consecutive ids. -/
def extendBlocksBy : List DoubleArrayBlock → Nat → List DoubleArrayBlock
  | blocks, 0 => blocks
  | blocks, n + 1 => extendBlocksBy (blocks ++ [DoubleArrayBlock.new blocks.length]) n

/-- Extend the block vector until block `unit_id / 256` exists. -/
def DoubleArrayBuilder.extend_to (bs : DoubleArrayBuilder) (unit_id : Nat) :
    DoubleArrayBuilder :=
  { bs with blocks := extendBlocksBy bs.blocks (unit_id / BLOCK_SIZE + 1 - bs.blocks.length) }

/-- `DoubleArrayBuilder::extend_block`. -/
def DoubleArrayBuilder.extend_block (bs : DoubleArrayBuilder) : DoubleArrayBuilder :=
  { bs with blocks := bs.blocks ++ [DoubleArrayBlock.new bs.blocks.length] }

/-- `DoubleArrayBuilder::reserve`: extend, then reserve cell
`unit_id % 256` in block `unit_id / 256` (which exists after extension;
the unreachable `none` arm returns the state unchanged). -/
def DoubleArrayBuilder.reserve (bs : DoubleArrayBuilder) (unit_id : Nat) :
    DoubleArrayBuilder :=
  let bs1 := bs.extend_to unit_id
  match bs1.blocks.get? (unit_id / BLOCK_SIZE) with
  | some blk =>
    { bs1 with blocks :=
        bs1.blocks.set (unit_id / BLOCK_SIZE) (blk.reserve (unit_id % BLOCK_SIZE)) }
  | none => bs1

/-- Read the word at `unit_id` (callers extend first, as `get_unit_mut`
does). -/
def DoubleArrayBuilder.word (bs : DoubleArrayBuilder) (unit_id : Nat) : Nat :=
  match bs.blocks.get? (unit_id / BLOCK_SIZE) with
  | some blk => blk.units.getD (unit_id % BLOCK_SIZE) 0
  | none => 0

/-- Write the word at `unit_id`. -/
def DoubleArrayBuilder.setWord (bs : DoubleArrayBuilder) (unit_id w : Nat) :
    DoubleArrayBuilder :=
  match bs.blocks.get? (unit_id / BLOCK_SIZE) with
  | some blk =>
    let blk1 : DoubleArrayBlock :=
      { blk with units := blk.units.set (unit_id % BLOCK_SIZE) w }
    { bs with blocks := bs.blocks.set (unit_id / BLOCK_SIZE) blk1 }
  | none => bs

/-- Result of the builder-side offset search over one block or the block
window. -/
inductive BFind where
  | panicked : BFind
  | fuelOut : BFind
  | nothing : BFind
  | found (offset_u32 : Nat) : BFind
deriving DecidableEq

/-- The `for offset in block.find_offset(...)` loop inside
`DoubleArrayBuilder::find_offset`: pull candidates from the iterator and
return the first absolute offset not in `used_offsets`.  The iterator
constructor `DoubleArrayBlock::find_offset` asserts a non-empty label
list, modelled by the leading `panicked` arm. -/
def block_search (blk : DoubleArrayBlock) (unit_id : Nat) (labels : List Nat)
    (used : List Nat) : Nat → Nat → BFind
  | 0, _ => .fuelOut
  | fuel + 1, uid =>
    if labels.isEmpty then .panicked
    else
      match find_offset_next blk unit_id labels uid with
      | .panicked => .panicked
      | .fuelOut => .fuelOut
      | .done => .nothing
      | .cand b uid1 =>
        let offset_u32 := (blk.id <<< 8) ||| b
        if used.contains offset_u32 then block_search blk unit_id labels used fuel uid1
        else .found offset_u32

/-- The `find_map` over the block window. -/
def blocks_find_offset (unit_id : Nat) (labels used : List Nat) :
    List DoubleArrayBlock → BFind
  | [] => .nothing
  | blk :: rest =>
    match block_search blk unit_id labels used 300 blk.head_unused with
    | .nothing => blocks_find_offset unit_id labels used rest
    | r => r

/-- `DoubleArrayBuilder::find_offset`: search the last
`NUM_TARGET_BLOCKS` blocks for an offset not in `used_offsets`. -/
def DoubleArrayBuilder.find_offset (bs : DoubleArrayBuilder) (unit_id : Nat)
    (labels : List Nat) : BFind :=
  let head_block := bs.blocks.length - NUM_TARGET_BLOCKS
  blocks_find_offset unit_id labels bs.used_offsets (bs.blocks.drop head_block)

/-- Result of the offset-search-or-extend loop of `build_recursive`. -/
inductive OffRes where
  | panicked : OffRes
  | fuelOut : OffRes
  | ok (bs : DoubleArrayBuilder) (offset : Nat) : OffRes
deriving DecidableEq

/-- The `loop { find_offset ... extend_block }` of `build_recursive`. -/
def offset_loop (unit_id : Nat) (labels : List Nat) :
    Nat → DoubleArrayBuilder → OffRes
  | 0, _ => .fuelOut
  | n + 1, bs =>
    match bs.find_offset unit_id labels with
    | .panicked => .panicked
    | .fuelOut => .fuelOut
    | .found off => .ok bs off
    | .nothing => offset_loop unit_id labels n bs.extend_block

/-- Result of the label-collection loop of `build_recursive`. -/
inductive LabRes where
  | panicked : LabRes
  | bailed : LabRes
  | collected (labels : List (Nat × Nat × Nat)) (value : Option Nat) : LabRes
deriving DecidableEq

/-- The `for i in begin..end` label-collection loop of `build_recursive`.
The accumulator holds the runs in reverse; a new run closes the previous
one at position `i`, and the final run is closed at `end`.  Modelled
panics: `keyset.get(i).unwrap()` out of range, the duplicated-terminator
assert `assert!(value.is_none())`, and the empty-labels assert
`assert!(labels.len() > 0)`.  `*key.get(depth)?` bails out (`None`). -/
def collect_labels (keyset : List (List Nat × Nat)) (depth : Nat) :
    Nat → Nat → List (Nat × Nat × Nat) → Option Nat → LabRes
  | 0, i, acc, value =>
    match acc with
    | [] => .panicked
    | (l0, s0, _) :: rest => .collected (((l0, s0, i) :: rest).reverse) value
  | n + 1, i, acc, value =>
    match keyset.get? i with
    | none => .panicked
    | some kv =>
      let key := kv.1
      let labelOpt : Option Nat :=
        if depth = key.length then some 0 else key.get? depth
      match labelOpt with
      | none => .bailed
      | some label =>
        if label = 0 ∧ value.isSome then .panicked
        else
          let value1 := if label = 0 then some kv.2 else value
          let acc1 :=
            match acc with
            | [] => [(label, i, 0)]
            | (l0, s0, e0) :: rest =>
              if l0 ≠ label then (label, i, 0) :: (l0, s0, i) :: rest
              else (l0, s0, e0) :: rest
          collect_labels keyset depth n (i + 1) acc1 value1

/-- Result of the children-population loop. -/
inductive ChildRes where
  | panicked : ChildRes
  | ok (bs : DoubleArrayBuilder) : ChildRes
deriving DecidableEq

/-- The `for label in labels_` loop of `build_recursive`: reserve
`offset XOR label`, assert the cell untouched, then write the leaf value
(label 0) or the label. -/
def children_loop (offset : Nat) (value : Option Nat) :
    List Nat → DoubleArrayBuilder → ChildRes
  | [], bs => .ok bs
  | label :: rest, bs =>
    let child_id := offset ^^^ label
    let bs1 := bs.reserve child_id
    let bs2 := bs1.extend_to child_id
    let w := bs2.word child_id
    if Yada.offset w ≠ 0 then .panicked
    else if Yada.label w ≠ 0 then .panicked
    else if Yada.value w ≠ 0 then .panicked
    else if has_leaf w then .panicked
    else if label = 0 then
      match value with
      | none => .panicked
      | some v => children_loop offset value rest (bs2.setWord child_id (set_value v))
    else children_loop offset value rest (bs2.setWord child_id (set_label w label))

/-- Outcome of `build_recursive` (an `Option<()>` plus panics and fuel). -/
inductive BuildOut where
  | panicked : BuildOut
  | fuelOut : BuildOut
  | bailed (bs : DoubleArrayBuilder) : BuildOut
  | ok (bs : DoubleArrayBuilder) : BuildOut
deriving DecidableEq

/-- One pending activation: a `build_recursive` call, or the
depth-first recursion loop over the collected runs (whose `Option`
results the source discards). -/
inductive BJob where
  | node (depth begin_ end_ unit_id : Nat) (bs : DoubleArrayBuilder) : BJob
  | runs (depth offset : Nat) (triples : List (Nat × Nat × Nat))
      (bs : DoubleArrayBuilder) : BJob

/-- `DoubleArrayBuilder::build_recursive`, fuelled.  The `node` arm is the
body of one call: collect the labels of `[begin, end)` at `depth`
(bailing propagates `None`), search an offset (extending blocks on
failure), assert it fits 29 bits, record it in `used_offsets`, write the
parent word (offset is stored relative: `offset XOR unit_id as u32`),
populate the children, then recurse over the runs — including the
terminator run, exactly as the source does. -/
def build_go (keyset : List (List Nat × Nat)) : Nat → BJob → BuildOut
  | 0, _ => .fuelOut
  | fuel + 1, .runs depth offset triples bs =>
    match triples with
    | [] => .ok bs
    | (label, b, e) :: rest =>
      match build_go keyset fuel (.node (depth + 1) b e (label ^^^ offset) bs) with
      | .panicked => .panicked
      | .fuelOut => .fuelOut
      | .bailed bs1 => build_go keyset fuel (.runs depth offset rest bs1)
      | .ok bs1 => build_go keyset fuel (.runs depth offset rest bs1)
  | fuel + 1, .node depth begin_ end_ unit_id bs =>
    match collect_labels keyset depth (end_ - begin_) begin_ [] none with
    | .panicked => .panicked
    | .bailed => .bailed bs
    | .collected labels value =>
      let labels_ := labels.map (fun t => t.1)
      match offset_loop unit_id labels_ 3 bs with
      | .panicked => .panicked
      | .fuelOut => .fuelOut
      | .ok bs1 offset =>
        if 1 <<< 29 ≤ offset then .panicked
        else
          let bs2 : DoubleArrayBuilder :=
            { bs1 with used_offsets := offset :: bs1.used_offsets }
          let hasLeaf := decide (labels_.head? = some 0)
          let bs3 := bs2.extend_to unit_id
          let w := bs3.word unit_id
          if Yada.offset w ≠ 0 then .panicked
          else
            match set_offset w (offset ^^^ (unit_id % U32)) with
            | none => .panicked
            | some w1 =>
              if has_leaf w1 then .panicked
              else
                let w2 := set_has_leaf w1 hasLeaf
                let bs4 := bs3.setWord unit_id w2
                match children_loop offset value labels_ bs4 with
                | .panicked => .panicked
                | .ok bs5 => build_go keyset fuel (.runs depth offset labels bs5)

/-- Result of `DoubleArrayBuilder::build`. -/
inductive BuildRes where
  | panicked : BuildRes
  | fuelOut : BuildRes
  | failed : BuildRes
  | image (bytes : List Nat) : BuildRes
deriving DecidableEq

/-- `u32::to_le_bytes`. -/
def word_to_le_bytes (w : Nat) : List Nat :=
  [w % 256, w / 256 % 256, w / 65536 % 256, w / 16777216 % 256]

/-- Serialization at the end of `build_from_keyset`: every unit of every
block, little endian. -/
def serialize (bs : DoubleArrayBuilder) : List Nat :=
  bs.blocks.flatMap (fun blk => blk.units.flatMap word_to_le_bytes)

/-- Fuel for the depth-first build; ample for the keysets considered. -/
def BUILD_FUEL : Nat := 64

/-- `DoubleArrayBuilder::build` = `Self::new().build_from_keyset(keyset)`:
reserve the root, run `build_recursive` over the whole keyset from the
root, and serialize on success.  `failed` is the `None` return. -/
def DoubleArrayBuilder.build (keyset : List (List Nat × Nat)) : BuildRes :=
  let bs0 : DoubleArrayBuilder :=
    { blocks := [DoubleArrayBlock.new 0], used_offsets := [] }
  let bs1 := bs0.reserve 0
  match build_go keyset BUILD_FUEL (.node 0 0 keyset.length 0 bs1) with
  | .panicked => .panicked
  | .fuelOut => .fuelOut
  | .bailed _ => .failed
  | .ok bs => .image (serialize bs)

/-- Projection of a built image (empty for non-images). -/
def BuildRes.getImage : BuildRes → List Nat
  | .image l => l
  | _ => []

/-- Discriminator for a successful build. -/
def BuildRes.isImage : BuildRes → Bool
  | .image _ => true
  | _ => false

/-! ## Readers (`src/lib.rs`) -/

/-- Result of `DoubleArray::get_unit`.  The slice expression
`self.0[index * UNIT_SIZE..(index + 1) * UNIT_SIZE]` panics when the
range exceeds the image; the `Err` arm of `try_into` (returning `None`)
is unreachable, because an in-range slice always has exactly 4 bytes. -/
inductive Fetch where
  | panicked : Fetch
  | word (w : Nat) : Fetch
deriving DecidableEq

/-- `u32::from_le_bytes` on the 4 bytes at `pos`. -/
def bytes_to_word (img : List Nat) (pos : Nat) : Nat :=
  img.getD pos 0 + 256 * (img.getD (pos + 1) 0 + 256 *
    (img.getD (pos + 2) 0 + 256 * img.getD (pos + 3) 0))

/-- `DoubleArray::get_unit`. -/
def get_unit (img : List Nat) (index : Nat) : Fetch :=
  if index * UNIT_SIZE + UNIT_SIZE ≤ img.length then
    .word (bytes_to_word img (index * UNIT_SIZE))
  else .panicked

/-- Result of `exact_match_search`. -/
inductive QRes where
  | panicked : QRes
  | notFound : QRes
  | found (v : Nat) : QRes
deriving DecidableEq

/-- The `for &c in key.iter().take(key.len() - 1)` loop of
`exact_match_search_bytes`: per byte, assert `c != 0`, fetch the current
unit, assert it is no leaf, step to `offset XOR c`, and compare the
child label as `u8` (hence `% 256`); a mismatch returns `None`. -/
def exact_match_loop (img : List Nat) : List Nat → Nat → QRes ⊕ Nat
  | [], node_pos => Sum.inr node_pos
  | c :: rest, node_pos =>
    if c = 0 then Sum.inl .panicked
    else
      match get_unit img node_pos with
      | .panicked => Sum.inl .panicked
      | .word u =>
        if is_leaf u then Sum.inl .panicked
        else
          let node_pos1 := Yada.offset u ^^^ c
          match get_unit img node_pos1 with
          | .panicked => Sum.inl .panicked
          | .word u1 =>
            if (Yada.label u1) % 256 = c then exact_match_loop img rest node_pos1
            else Sum.inl .notFound

/-- `DoubleArray::exact_match_search_bytes`.  The Rust `key.len() - 1`
is `usize` arithmetic; for the empty probe the release profile wraps and
`take` then yields the whole (empty) iterator, which the saturating `Nat`
subtraction models exactly; the subsequent `key.last().unwrap()` panic
on an empty probe is the `none` arm. -/
def exact_match_search (img : List Nat) (key : List Nat) : QRes :=
  match exact_match_loop img (key.take (key.length - 1)) 0 with
  | Sum.inl r => r
  | Sum.inr node_pos =>
    match get_unit img node_pos with
    | .panicked => .panicked
    | .word u =>
      if has_leaf u = false then .notFound
      else
        match key.getLast? with
        | none => .panicked
        | some c =>
          if c ≠ 0 then .panicked
          else
            match get_unit img (Yada.offset u ^^^ c) with
            | .panicked => .panicked
            | .word u2 =>
              if is_leaf u2 = false then .panicked
              else if 1 <<< 31 ≤ Yada.value u2 then .panicked
              else .found (Yada.value u2)

/-- Result of draining the `CommonPrefixSearch` iterator. -/
inductive CPOut where
  | panicked : CPOut
  | yields (out : List (Nat × Nat)) : CPOut
deriving DecidableEq

/-- `CommonPrefixSearch::next`, drained to a list.  The structural
recursion on the remaining probe models `while self.key_pos <
self.key.len()`; `key_pos` tracks the consumed length for the yielded
pairs.  A label mismatch ends the iteration; `has_leaf` yields the value
of the unit at `unit.offset()`. -/
def common_prefix_go (img : List Nat) :
    List Nat → Nat → Nat → List (Nat × Nat) → CPOut
  | [], _, _, acc => .yields acc.reverse
  | c :: rest, unit_id, key_pos, acc =>
    match get_unit img unit_id with
    | .panicked => .panicked
    | .word u =>
      let key_pos1 := key_pos + 1
      let unit_id1 := Yada.offset u ^^^ c
      match get_unit img unit_id1 with
      | .panicked => .panicked
      | .word u1 =>
        if Yada.label u1 ≠ c then .yields acc.reverse
        else if has_leaf u1 then
          match get_unit img (Yada.offset u1) with
          | .panicked => .panicked
          | .word leaf =>
            common_prefix_go img rest unit_id1 key_pos1 ((Yada.value leaf, key_pos1) :: acc)
        else common_prefix_go img rest unit_id1 key_pos1 acc

/-- `DoubleArray::common_prefix_search`, all items collected. -/
def common_prefix_search (img key : List Nat) : CPOut :=
  common_prefix_go img key 0 0 []

end Yada

/-! ## Concrete images used by the claim theorems -/

/-- Reader shorthand: the 32-bit word at unit index `i` of an image
(the payload of `get_unit` for an in-range index). -/
def wordAt (img : List Nat) (i : Nat) : Nat := Yada.bytes_to_word img (i * Yada.UNIT_SIZE)

/-- The image built from the raw-spelling (implicit-terminator) keyset
`[("a", 0)]`. -/
def imgA : List Nat := (Yada.DoubleArrayBuilder.build [([97], 0)]).getImage

/-- The image built from the raw-spelling keyset `[("ab", 1)]`. -/
def imgAB : List Nat := (Yada.DoubleArrayBuilder.build [([97, 98], 1)]).getImage

/-- The image built from the raw-spelling keyset `[("a", 0), ("ab", 1)]`. -/
def imgA_AB : List Nat :=
  (Yada.DoubleArrayBuilder.build [([97], 0), ([97, 98], 1)]).getImage

/-- The image built from `[("a", 2^31)]`, whose value exceeds 31 bits. -/
def imgBig : List Nat := (Yada.DoubleArrayBuilder.build [([97], 2 ^ 31)]).getImage

set_option maxRecDepth 100000 in
/-- C1.  The round-trip fails: with keys spelled per the terminator
contract of `exact_match_search` (a trailing `0x00`), the build of the
one-element keyset `[("a\x00", 0)]` panics — `build_recursive` recurses
into the terminator run, treats the freshly written value leaf as an
internal node, and trips `assert_eq!(parent_unit.offset(), 0)` — instead
of returning `Some(image)`. -/
theorem C1_roundtrip_fails :
    Yada.DoubleArrayBuilder.build [([97, 0], 0)] = Yada.BuildRes.panicked := by
  rfl

set_option maxRecDepth 100000 in
/-- C2.  The traversal identity fails on the image of the raw-spelling
keyset `[("ab", 1)]`: node 1 is reached from the root via byte 97
(`offset(word 0) XOR 97 = 1`, its label is 97 and it is internal), the
builder uses child byte 98 from it, but the word at
`offset(word 1) XOR 98` is the value leaf (label `2^31 + 1`), not the
label-98 child, which actually sits at index 3.  The builder stores
`offset XOR unit_id` (a relative offset) while the claim and the reader
decode the field as the absolute child base. -/
theorem C2_node_invariant_fails :
    (Yada.DoubleArrayBuilder.build [([97, 98], 1)]).isImage = true ∧
    Yada.offset (wordAt imgAB 0) ^^^ 97 = 1 ∧
    Yada.label (wordAt imgAB 1) = 97 ∧
    Yada.is_leaf (wordAt imgAB 1) = false ∧
    Yada.label (wordAt imgAB (Yada.offset (wordAt imgAB 1) ^^^ 98)) ≠ 98 ∧
    Yada.label (wordAt imgAB 3) = 98 ∧
    Yada.offset (wordAt imgAB 1) ^^^ 98 ≠ 3 := by
  refine ⟨by rfl, by rfl, by rfl, by rfl, by decide, by rfl, by decide⟩

set_option maxRecDepth 100000 in
/-- C3.  Common-prefix search is wrong on the image of the valid
raw-spelling keyset `[("a", 0), ("ab", 1)]` probed with `"ab"`: the
claim demands `[(0, 1), (1, 2)]` (both stored keys are prefixes), but
the iterator yields `[(1, 1)]` — the leaf fetch at `unit.offset()`
lands on the leaf of `"ab"` while reporting length 1, and the second
step dereferences the relative offset as absolute and mismatches. -/
theorem C3_common_prefix_fails :
    (Yada.DoubleArrayBuilder.build [([97], 0), ([97, 98], 1)]).isImage = true ∧
    Yada.common_prefix_search imgA_AB [97, 98] = Yada.CPOut.yields [(1, 1)] ∧
    Yada.CPOut.yields [(1, 1)] ≠ Yada.CPOut.yields [(0, 1), (1, 2)] := by
  refine ⟨by rfl, by rfl, by decide⟩

set_option maxRecDepth 100000 in
/-- C4.  The two spelling contracts do not agree on the logical keyset
`{"a" ↦ 0}`: the explicit-terminator build (`[("a\x00", 0)]`, Contract
T) panics, while the raw build (`[("a", 0)]`, Contract I) returns an
image, so the two contracts cannot produce byte-identical images. -/
theorem C4_contracts_disagree :
    Yada.DoubleArrayBuilder.build [([97, 0], 0)] = Yada.BuildRes.panicked ∧
    (Yada.DoubleArrayBuilder.build [([97], 0)]).isImage = true := by
  refine ⟨by rfl, by rfl⟩

/-- C5.  An out-of-range fetch panics instead of returning "not found":
on the empty image, exact match with probe `[0]` and prefix search with
probe `[97]` both hit the slice panic inside `get_unit` (its `Err`
fallback is dead code). -/
theorem C5_out_of_range_fetch_panics :
    Yada.exact_match_search [] [0] = Yada.QRes.panicked ∧
    Yada.common_prefix_search [] [97] = Yada.CPOut.panicked := by
  refine ⟨by rfl, by rfl⟩

set_option maxRecDepth 100000 in
/-- C6 counterexample.  The unsorted keyset `[("b", 0), ("a", 1)]`
violates the sortedness precondition, yet `build` returns an image, not
the distinguished failure `None`. -/
theorem C6_counterexample :
    Yada.DoubleArrayBuilder.build [([98], 0), ([97], 1)] ≠ Yada.BuildRes.failed ∧
    (Yada.DoubleArrayBuilder.build [([98], 0), ([97], 1)]).isImage = true := by
  refine ⟨by decide, by rfl⟩

set_option maxRecDepth 100000 in
/-- C6 (amended).  `build` performs no precondition validation and never
returns `None` for the four violation classes: an unsorted keyset builds
to an image; duplicate keys panic at `assert!(value.is_none())`; a key
with an interior `0x00` under the raw spelling panics at the
parent-offset assertion; a value `≥ 2^31` builds to an image whose leaf
silently stores the value truncated to 31 bits (here `2^31 ↦ 0`). -/
theorem C6_no_validation :
    (Yada.DoubleArrayBuilder.build [([98], 0), ([97], 1)]).isImage = true ∧
    Yada.DoubleArrayBuilder.build [([97], 0), ([97], 1)] = Yada.BuildRes.panicked ∧
    Yada.DoubleArrayBuilder.build [([97, 0, 98], 5)] = Yada.BuildRes.panicked ∧
    (Yada.DoubleArrayBuilder.build [([97], 2 ^ 31)]).isImage = true ∧
    Yada.is_leaf (wordAt imgBig 2) = true ∧
    Yada.value (wordAt imgBig 2) = 0 := by
  refine ⟨by rfl, by rfl, by rfl, by rfl, by rfl, by rfl⟩

/-! ## Lemmas about the exact-match probe contract (claim C9) -/

/-- The traversal loop of `exact_match_search` reaches its end (`inr`)
only when no traversed byte is the terminator 0 (the `assert_ne!` would
panic on the byte it reaches). -/
theorem exact_match_loop_no_zero (img : List Nat) :
    ∀ (l : List Nat) (pos pos1 : Nat),
      Yada.exact_match_loop img l pos = Sum.inr pos1 → 0 ∈ l → False := by
  intro l
  induction l with
  | nil =>
    intro pos pos1 _ hmem
    cases hmem
  | cons c rest ih =>
    intro pos pos1 h hmem
    unfold Yada.exact_match_loop at h
    by_cases hc : c = 0
    · rw [if_pos hc] at h
      cases h
    · rw [if_neg hc] at h
      rcases List.mem_cons.mp hmem with h0 | h0
      · exact hc h0.symm
      · split at h
        · cases h
        · split at h
          · cases h
          · dsimp only at h
            split at h
            · cases h
            · split at h
              · exact ih _ _ h h0
              · cases h

/-- The traversal loop never early-returns a value. -/
theorem exact_match_loop_no_found (img : List Nat) :
    ∀ (l : List Nat) (pos v : Nat),
      Yada.exact_match_loop img l pos = Sum.inl (Yada.QRes.found v) → False := by
  intro l
  induction l with
  | nil =>
    intro pos v h
    cases h
  | cons c rest ih =>
    intro pos v h
    unfold Yada.exact_match_loop at h
    split at h
    · cases h
    · split at h
      · cases h
      · split at h
        · cases h
        · dsimp only at h
          split at h
          · cases h
          · split at h
            · exact ih _ _ h
            · cases h

/-- C9 (amended).  `exact_match_search` returns a value only for probes
that are non-empty, end in byte `0x00` and have no interior `0x00`: a
probe violating this contract never yields a value — it either returns
`None` or panics (the `assert_ne!` fires only when the loop actually
reaches an interior `0x00`, the final `assert_eq!` and `unwrap` only
when the prefix traversal succeeds at a `has_leaf` node), but it is not
guaranteed to panic. -/
theorem C9_probe_contract (img key : List Nat) (v : Nat)
    (hviol : key = [] ∨ key.getLast? ≠ some 0 ∨ 0 ∈ key.dropLast) :
    Yada.exact_match_search img key ≠ Yada.QRes.found v := by
  intro hfound
  unfold Yada.exact_match_search at hfound
  split at hfound
  · rename_i r hloop
    subst hfound
    exact exact_match_loop_no_found img _ _ _ hloop
  · rename_i node_pos hloop
    split at hfound
    · cases hfound
    · rename_i u _
      split at hfound
      · cases hfound
      · split at hfound
        · cases hfound
        · rename_i hne c hlast
          split at hfound
          · cases hfound
          · rename_i hc0
            have hc : c = 0 := by omega
            subst hc
            -- the probe ends in 0, is non-empty, and its prefix has no 0
            rcases hviol with hnil | hlastne | hmem
            · rw [hnil] at hlast
              cases hlast
            · exact hlastne hlast
            · rw [List.dropLast_eq_take] at hmem
              exact exact_match_loop_no_zero img _ _ _ hloop hmem

/-- Witness for C9 (amended): the probe `[1]` has a non-zero last byte,
so exact match on the empty image cannot return the value 0. -/
theorem C9_probe_contract_witness :
    Yada.exact_match_search [] [1] ≠ Yada.QRes.found 0 :=
  C9_probe_contract [] [1] 0 (Or.inr (Or.inl (by decide)))

set_option maxRecDepth 100000 in
/-- C9 counterexample.  On the image built from the raw keyset
`[("a", 0)]`, the probe `[98]` is non-empty with a non-zero last byte,
yet `exact_match_search` returns `None` without any assertion or unwrap
panic (the root has no `has_leaf`, so the final assertions are never
reached), refuting the claim that every such probe panics. -/
theorem C9_counterexample :
    (Yada.DoubleArrayBuilder.build [([97], 0)]).isImage = true ∧
    Yada.exact_match_search imgA [98] = Yada.QRes.notFound ∧
    Yada.QRes.notFound ≠ Yada.QRes.panicked := by
  refine ⟨by rfl, by rfl, by decide⟩
